import Mathlib

/- Verification development for the timeline synchronization engine of
   src/main.mjs: the keyed publish/subscribe data store, the clamp/snap
   timeline arithmetic of clampTime, the autoplay clock onUpdate, and the
   render sink adapter applyDynamicToEntity.

   JavaScript numbers are modelled by exact rationals; the non-finite
   inputs that clampTime guards against are modelled by the JSNum type.
   Floating-point rounding of the source is abstracted away. -/

namespace Huyu

/-- Timeline constant TIMELINE_MIN = 0 from src/main.mjs line 206. -/
def TIMELINE_MIN : ℚ := 0

/-- Timeline constant TIMELINE_MAX = 2 from src/main.mjs line 207. -/
def TIMELINE_MAX : ℚ := 2

/-- Timeline constant TIMELINE_STEP = 0.02 from src/main.mjs line 208. -/
def TIMELINE_STEP : ℚ := 1 / 50

/-- Constant SEGMENT_DURATION = 2 from src/main.mjs line 209. -/
def SEGMENT_DURATION : ℚ := 2

/-- Constant SEGMENT_MAX = SEGMENT_DURATION - TIMELINE_STEP, line 210. -/
def SEGMENT_MAX : ℚ := SEGMENT_DURATION - TIMELINE_STEP

/-- Embedding of pc.math.clamp(value, min, max): returns max when value is
at least max, min when value is at most min, and value otherwise. -/
def clamp (value lo hi : ℚ) : ℚ :=
  if hi ≤ value then hi else if value ≤ lo then lo else value

/-- JavaScript Math.round on a finite number: round half toward positive
infinity, i.e. the floor of the input plus one half. -/
def jsRound (q : ℚ) : ℚ := ((⌊q + 1 / 2⌋ : ℤ) : ℚ)

/-- A JavaScript number as seen by Number.isFinite: either a finite value
(modelled exactly as a rational) or one of NaN, +Infinity, -Infinity. -/
inductive JSNum where
  | num (q : ℚ)
  | nan
  | inf
  | negInf
deriving DecidableEq

/-- Number.isFinite for the JSNum model. -/
def JSNum.isFinite : JSNum → Bool
  | .num _ => true
  | _ => false

/-- The rational carried by a finite JSNum (unused branches return 0). -/
def JSNum.toQ : JSNum → ℚ
  | .num q => q
  | _ => 0

/-- Embedding of clampTime from src/main.mjs lines 386-391: substitute
TIMELINE_MIN for non-finite input, clamp to [TIMELINE_MIN, TIMELINE_MAX],
snap to the nearest TIMELINE_STEP multiple with Math.round, and re-clamp
to [TIMELINE_MIN, TIMELINE_MAX - TIMELINE_STEP]. -/
def clampTime (value : JSNum) : ℚ :=
  let numericValue := if value.isFinite then value.toQ else TIMELINE_MIN
  let clamped := clamp numericValue TIMELINE_MIN TIMELINE_MAX
  let snapped := jsRound (clamped / TIMELINE_STEP) * TIMELINE_STEP
  clamp snapped TIMELINE_MIN (TIMELINE_MAX - TIMELINE_STEP)

theorem clamp_le_right (v lo hi : ℚ) (h : lo ≤ hi) : clamp v lo hi ≤ hi := by
  unfold clamp
  split_ifs with h1 h2
  · exact le_refl hi
  · exact h
  · exact le_of_not_le h1

theorem clamp_left_le (v lo hi : ℚ) (h : lo ≤ hi) : lo ≤ clamp v lo hi := by
  unfold clamp
  split_ifs with h1 h2
  · exact h
  · exact le_refl lo
  · exact le_of_not_le h2

theorem clamp_of_mem (v lo hi : ℚ) (h1 : lo ≤ v) (h2 : v ≤ hi) :
    clamp v lo hi = v := by
  unfold clamp
  split_ifs with ha hb
  · exact le_antisymm ha h2
  · exact le_antisymm h1 hb
  · rfl

theorem floor_half : ⌊(1 : ℚ) / 2⌋ = 0 := by
  rw [Int.floor_eq_iff]
  norm_num

theorem jsRound_intCast (n : ℤ) : jsRound ((n : ℤ) : ℚ) = ((n : ℤ) : ℚ) := by
  unfold jsRound
  rw [add_comm, Int.floor_add_int, floor_half]
  push_cast
  exact zero_add _

/-- The final re-clamp of clampTime always lands on an integer multiple of
TIMELINE_STEP between 0 and 99 steps. -/
theorem clamp_step_exists (x : ℚ) :
    ∃ n : ℤ, 0 ≤ n ∧ n ≤ 99 ∧
      clamp (jsRound x * TIMELINE_STEP) TIMELINE_MIN (TIMELINE_MAX - TIMELINE_STEP)
        = (n : ℚ) * TIMELINE_STEP := by
  unfold clamp jsRound TIMELINE_MIN TIMELINE_MAX TIMELINE_STEP
  split_ifs with h1 h2
  · exact ⟨99, by norm_num, by norm_num, by norm_num⟩
  · exact ⟨0, by norm_num, by norm_num, by norm_num⟩
  · refine ⟨⌊x + 1 / 2⌋, ?_, ?_, rfl⟩
    · push_neg at h2
      have hq : (0 : ℚ) < (⌊x + 1 / 2⌋ : ℤ) := by nlinarith
      exact_mod_cast hq.le
    · push_neg at h1
      have hq : ((⌊x + 1 / 2⌋ : ℤ) : ℚ) < 99 := by nlinarith
      exact_mod_cast hq.le

/-- Every clampTime result is an integer number of steps, between 0 and 99
steps inclusive. -/
theorem clampTime_exists (v : JSNum) :
    ∃ n : ℤ, 0 ≤ n ∧ n ≤ 99 ∧ clampTime v = (n : ℚ) * TIMELINE_STEP := by
  unfold clampTime
  exact clamp_step_exists _

theorem clampTime_bounds (v : JSNum) :
    TIMELINE_MIN ≤ clampTime v ∧ clampTime v ≤ TIMELINE_MAX - TIMELINE_STEP := by
  unfold clampTime
  refine ⟨clamp_left_le _ _ _ ?_, clamp_le_right _ _ _ ?_⟩ <;>
    norm_num [TIMELINE_MIN, TIMELINE_MAX, TIMELINE_STEP]

theorem clampTime_nan : clampTime .nan = TIMELINE_MIN := by
  norm_num [clampTime, clamp, jsRound, JSNum.isFinite, JSNum.toQ, floor_half,
    TIMELINE_MIN, TIMELINE_MAX, TIMELINE_STEP]

theorem clampTime_inf : clampTime .inf = TIMELINE_MIN := by
  norm_num [clampTime, clamp, jsRound, JSNum.isFinite, JSNum.toQ, floor_half,
    TIMELINE_MIN, TIMELINE_MAX, TIMELINE_STEP]

theorem clampTime_negInf : clampTime .negInf = TIMELINE_MIN := by
  norm_num [clampTime, clamp, jsRound, JSNum.isFinite, JSNum.toQ, floor_half,
    TIMELINE_MIN, TIMELINE_MAX, TIMELINE_STEP]

theorem clampTime_MAX : clampTime (.num TIMELINE_MAX) = TIMELINE_MAX - TIMELINE_STEP := by
  have h100 : ((2 : ℚ)) / (1 / 50) = ((100 : ℤ) : ℚ) := by norm_num
  norm_num [clampTime, JSNum.isFinite, JSNum.toQ, TIMELINE_MIN, TIMELINE_MAX,
    TIMELINE_STEP]
  rw [show clamp 2 0 2 = 2 from clamp_of_mem 2 0 2 (by norm_num) (le_refl 2)]
  rw [h100, jsRound_intCast]
  norm_num [clamp]

/-- Claim C3: clampTime substitutes TIMELINE_MIN for every non-finite input,
its result always lies in [TIMELINE_MIN, TIMELINE_MAX - TIMELINE_STEP],
(clampTime x - TIMELINE_MIN) / TIMELINE_STEP is always an integer, and
clampTime at TIMELINE_MAX returns TIMELINE_MAX - TIMELINE_STEP. -/
theorem clampTime_spec (v : JSNum) :
    (clampTime .nan = TIMELINE_MIN ∧ clampTime .inf = TIMELINE_MIN ∧
      clampTime .negInf = TIMELINE_MIN) ∧
    (TIMELINE_MIN ≤ clampTime v ∧ clampTime v ≤ TIMELINE_MAX - TIMELINE_STEP) ∧
    (∃ n : ℤ, (clampTime v - TIMELINE_MIN) / TIMELINE_STEP = (n : ℚ)) ∧
    clampTime (.num TIMELINE_MAX) = TIMELINE_MAX - TIMELINE_STEP := by
  refine ⟨⟨clampTime_nan, clampTime_inf, clampTime_negInf⟩, clampTime_bounds v,
    ?_, clampTime_MAX⟩
  obtain ⟨n, _, _, he⟩ := clampTime_exists v
  refine ⟨n, ?_⟩
  rw [he]
  norm_num [TIMELINE_MIN, TIMELINE_STEP]

/-- Claim C7: clampTime is idempotent: re-clamping an already clamped value
(fed back as a finite number) returns it unchanged. -/
theorem clampTime_idempotent (v : JSNum) :
    clampTime (.num (clampTime v)) = clampTime v := by
  obtain ⟨n, h0, h99, he⟩ := clampTime_exists v
  rw [he]
  have hn0 : (0 : ℚ) ≤ (n : ℚ) := by exact_mod_cast h0
  have hn99 : ((n : ℚ)) ≤ 99 := by exact_mod_cast h99
  have hge : TIMELINE_MIN ≤ (n : ℚ) * TIMELINE_STEP := by
    norm_num [TIMELINE_MIN, TIMELINE_STEP]
    positivity
  have hle2 : (n : ℚ) * TIMELINE_STEP ≤ TIMELINE_MAX := by
    norm_num [TIMELINE_MAX, TIMELINE_STEP]
    nlinarith
  have hle : (n : ℚ) * TIMELINE_STEP ≤ TIMELINE_MAX - TIMELINE_STEP := by
    norm_num [TIMELINE_MAX, TIMELINE_STEP]
    nlinarith
  show clampTime (.num ((n : ℚ) * TIMELINE_STEP)) = (n : ℚ) * TIMELINE_STEP
  unfold clampTime
  simp only [JSNum.isFinite, JSNum.toQ, if_pos]
  rw [clamp_of_mem _ _ _ hge hle2]
  have hdiv : (n : ℚ) * TIMELINE_STEP / TIMELINE_STEP = ((n : ℤ) : ℚ) := by
    rw [mul_div_assoc, div_self (by norm_num [TIMELINE_STEP]), mul_one]
  rw [hdiv, jsRound_intCast]
  exact clamp_of_mem _ _ _ hge hle

/- ------------------------------------------------------------------
   Autoplay clock (src/main.mjs lines 447-463).
   The per-frame tick onUpdate mutates isDragging/isPaused-guarded state;
   the write data.set('timeline.uTime', nextValue) synchronously invokes
   timelineHandler -> applyTimelineValue (lines 412-421), which stores
   clampTime(nextValue) into currentTimelineValue.  The model returns the
   updated state together with the list of raw values passed to data.set
   during the tick.  UI and render side effects of applyTimelineValue are
   not observed by the claims and are omitted.
   ------------------------------------------------------------------ -/

/-- Mutable timeline state from src/main.mjs lines 373-376: isDragging,
isPaused, autoplayAccumulator and currentTimelineValue. -/
structure TState where
  isDragging : Bool
  isPaused : Bool
  acc : ℚ
  cur : ℚ
deriving DecidableEq

/-- Embedding of onUpdate (src/main.mjs lines 447-463).  If dragging or
paused the accumulator is reset and nothing is written.  Otherwise the
accumulator grows by dt * 0.5 and, when it has reached TIMELINE_STEP
(AUTOPLAY_INTERVAL = TIMELINE_STEP, line 211), a single step is taken:
the accumulator is decremented once, the next value (wrapping to
TIMELINE_MIN past TIMELINE_MAX - TIMELINE_STEP) is written through
data.set, and the store handler updates cur to clampTime(next). -/
def onUpdate (s : TState) (dt : ℚ) : TState × List ℚ :=
  if s.isDragging || s.isPaused then ({ s with acc := 0 }, [])
  else
    let acc1 := s.acc + dt * (1 / 2)
    if TIMELINE_STEP ≤ acc1 then
      let nextValue :=
        if TIMELINE_MAX - TIMELINE_STEP < s.cur + TIMELINE_STEP then TIMELINE_MIN
        else s.cur + TIMELINE_STEP
      ({ isDragging := s.isDragging, isPaused := s.isPaused,
         acc := acc1 - TIMELINE_STEP, cur := clampTime (.num nextValue) },
       [nextValue])
    else ({ s with acc := acc1 }, [])

/-- A sequence of frame ticks: runs onUpdate once per elapsed-time entry
and concatenates the values written to the store. -/
def runTicks (s : TState) : List ℚ → TState × List ℚ
  | [] => (s, [])
  | dt :: rest =>
      let p1 := onUpdate s dt
      let p2 := runTicks p1.1 rest
      (p2.1, p1.2 ++ p2.2)

theorem onUpdate_dragging_or_paused (s : TState) (dt : ℚ)
    (h : s.isDragging = true ∨ s.isPaused = true) :
    onUpdate s dt = ({ s with acc := 0 }, []) := by
  unfold onUpdate
  rcases h with h | h <;> simp [h]

/-- Evaluation of onUpdate on a dragging state: accumulator reset, no
write. -/
theorem onUpdate_drag (p : Bool) (acc cur dt : ℚ) :
    onUpdate ⟨true, p, acc, cur⟩ dt = (⟨true, p, 0, cur⟩, []) := rfl

/-- Evaluation of onUpdate on a playing, non-dragging state. -/
theorem onUpdate_run (acc cur dt : ℚ) :
    onUpdate ⟨false, false, acc, cur⟩ dt =
      if TIMELINE_STEP ≤ acc + dt * (1 / 2) then
        (⟨false, false, acc + dt * (1 / 2) - TIMELINE_STEP,
          clampTime (.num (if TIMELINE_MAX - TIMELINE_STEP < cur + TIMELINE_STEP
            then TIMELINE_MIN else cur + TIMELINE_STEP))⟩,
         [if TIMELINE_MAX - TIMELINE_STEP < cur + TIMELINE_STEP
            then TIMELINE_MIN else cur + TIMELINE_STEP])
      else (⟨false, false, acc + dt * (1 / 2), cur⟩, []) := rfl

theorem runTicks_dragging (dts : List ℚ) (p : Bool) (acc cur : ℚ) :
    (runTicks ⟨true, p, acc, cur⟩ dts).2 = [] := by
  induction dts generalizing acc with
  | nil => rfl
  | cons dt rest ih =>
      unfold runTicks
      rw [onUpdate_drag]
      simpa using ih 0

theorem runTicks_no_step (dts : List ℚ) (acc cur : ℚ)
    (hpos : ∀ d ∈ dts, 0 ≤ d)
    (hsum : acc + (1 / 2) * dts.sum < TIMELINE_STEP) :
    (runTicks ⟨false, false, acc, cur⟩ dts).2 = [] := by
  induction dts generalizing acc with
  | nil => rfl
  | cons dt rest ih =>
      have hdt : 0 ≤ dt := hpos dt (by simp)
      have hrest : 0 ≤ rest.sum :=
        List.sum_nonneg fun d hd => hpos d (by simp [hd])
      simp only [List.sum_cons] at hsum
      have hlt : ¬ TIMELINE_STEP ≤ acc + dt * (1 / 2) := by
        push_neg
        linarith
      unfold runTicks
      rw [onUpdate_run, if_neg hlt]
      simpa using ih (acc + dt * (1 / 2))
        (fun d hd => hpos d (by simp [hd])) (by linarith)

theorem clampTime_step : clampTime (.num TIMELINE_STEP) = TIMELINE_STEP := by
  have h1 : ((1 : ℚ) / 50) / (1 / 50) = ((1 : ℤ) : ℚ) := by norm_num
  unfold clampTime
  simp only [JSNum.isFinite, JSNum.toQ, if_pos]
  rw [show clamp TIMELINE_STEP TIMELINE_MIN TIMELINE_MAX = TIMELINE_STEP from
    clamp_of_mem _ _ _ (by norm_num [TIMELINE_MIN, TIMELINE_STEP])
      (by norm_num [TIMELINE_MAX, TIMELINE_STEP])]
  rw [show TIMELINE_STEP / TIMELINE_STEP = ((1 : ℤ) : ℚ) by
    norm_num [TIMELINE_STEP]]
  rw [jsRound_intCast]
  push_cast
  rw [one_mul]
  exact clamp_of_mem _ _ _ (by norm_num [TIMELINE_MIN, TIMELINE_STEP])
    (by norm_num [TIMELINE_MAX, TIMELINE_STEP])

theorem runTicks_one_step (dts : List ℚ) (acc : ℚ)
    (hpos : ∀ d ∈ dts, 0 ≤ d)
    (hacc0 : 0 ≤ acc) (hacc1 : acc < TIMELINE_STEP)
    (hlo : TIMELINE_STEP ≤ acc + (1 / 2) * dts.sum)
    (hhi : acc + (1 / 2) * dts.sum < 2 * TIMELINE_STEP) :
    (runTicks ⟨false, false, acc, TIMELINE_MIN⟩ dts).2
      = [TIMELINE_MIN + TIMELINE_STEP] := by
  induction dts generalizing acc with
  | nil =>
      exfalso
      simp only [List.sum_nil, mul_zero, add_zero] at hlo
      linarith
  | cons dt rest ih =>
      have hdt : 0 ≤ dt := hpos dt (by simp)
      have hrest : 0 ≤ rest.sum :=
        List.sum_nonneg fun d hd => hpos d (by simp [hd])
      simp only [List.sum_cons] at hlo hhi
      by_cases hfire : TIMELINE_STEP ≤ acc + dt * (1 / 2)
      · -- the step fires on this tick, the remaining ticks write nothing
        have hnowrap :
            ¬ (TIMELINE_MAX - TIMELINE_STEP < TIMELINE_MIN + TIMELINE_STEP) := by
          norm_num [TIMELINE_MIN, TIMELINE_MAX, TIMELINE_STEP]
        unfold runTicks
        rw [onUpdate_run, if_pos hfire, if_neg hnowrap]
        have hrest2 := runTicks_no_step rest (acc + dt * (1 / 2) - TIMELINE_STEP)
          (clampTime (.num (TIMELINE_MIN + TIMELINE_STEP)))
          (fun d hd => hpos d (by simp [hd])) (by linarith)
        simpa using hrest2
      · -- no step yet: accumulate and recurse
        unfold runTicks
        rw [onUpdate_run, if_neg hfire]
        push_neg at hfire
        have := ih (acc + dt * (1 / 2))
          (fun d hd => hpos d (by simp [hd])) (by linarith) hfire
          (by linarith) (by linarith)
        simpa using this

/-- Claim C5: a tick while dragging or paused resets the accumulator and
writes nothing; from currentValue = TIMELINE_MIN with an empty accumulator,
non-negative ticks whose scaled sum reaches TIMELINE_STEP (without reaching
a second step) produce exactly one write of TIMELINE_MIN + TIMELINE_STEP,
while the same ticks with dragging in progress produce zero writes. -/
theorem autoplay_exclusion (s : TState) (dt : ℚ) (dts : List ℚ)
    (hpos : ∀ d ∈ dts, 0 ≤ d)
    (hlo : TIMELINE_STEP ≤ (1 / 2) * dts.sum)
    (hhi : (1 / 2) * dts.sum < 2 * TIMELINE_STEP) :
    (s.isDragging = true ∨ s.isPaused = true →
      onUpdate s dt = ({ s with acc := 0 }, [])) ∧
    (runTicks ⟨false, false, 0, TIMELINE_MIN⟩ dts).2
      = [TIMELINE_MIN + TIMELINE_STEP] ∧
    (runTicks ⟨true, false, 0, TIMELINE_MIN⟩ dts).2 = [] := by
  refine ⟨fun h => onUpdate_dragging_or_paused s dt h, ?_, ?_⟩
  · exact runTicks_one_step dts 0 hpos (le_refl 0)
      (by norm_num [TIMELINE_STEP]) (by simpa using hlo) (by simpa using hhi)
  · exact runTicks_dragging dts false 0 TIMELINE_MIN

/-- Witness for C5 at the concrete tick list [1/25]. -/
theorem autoplay_exclusion_witness :
    ((⟨true, false, 0, TIMELINE_MIN⟩ : TState).isDragging = true ∨
      (⟨true, false, 0, TIMELINE_MIN⟩ : TState).isPaused = true →
      onUpdate ⟨true, false, 0, TIMELINE_MIN⟩ 1
        = ({ (⟨true, false, 0, TIMELINE_MIN⟩ : TState) with acc := 0 }, [])) ∧
    (runTicks ⟨false, false, 0, TIMELINE_MIN⟩ [1 / 25]).2
      = [TIMELINE_MIN + TIMELINE_STEP] ∧
    (runTicks ⟨true, false, 0, TIMELINE_MIN⟩ [1 / 25]).2 = [] :=
  autoplay_exclusion ⟨true, false, 0, TIMELINE_MIN⟩ 1 [1 / 25]
    (by intro d hd; rw [List.mem_singleton] at hd; rw [hd]; norm_num)
    (by norm_num [TIMELINE_STEP])
    (by norm_num [TIMELINE_STEP])

/-- Claim C6: from currentValue = TIMELINE_MAX - TIMELINE_STEP, a tick on
which the autoplay step fires writes TIMELINE_MIN (wrapping to the loop
start) and never writes TIMELINE_MAX. -/
theorem autoplay_wraparound (acc dt : ℚ)
    (h : TIMELINE_STEP ≤ acc + dt * (1 / 2)) :
    (onUpdate ⟨false, false, acc, TIMELINE_MAX - TIMELINE_STEP⟩ dt).2
      = [TIMELINE_MIN] ∧
    TIMELINE_MAX ∉ (onUpdate ⟨false, false, acc, TIMELINE_MAX - TIMELINE_STEP⟩ dt).2 := by
  have hwrap : TIMELINE_MAX - TIMELINE_STEP
      < (TIMELINE_MAX - TIMELINE_STEP) + TIMELINE_STEP := by
    norm_num [TIMELINE_MAX, TIMELINE_STEP]
  rw [onUpdate_run, if_pos h, if_pos hwrap]
  refine ⟨rfl, ?_⟩
  norm_num [TIMELINE_MIN, TIMELINE_MAX]

/-- Witness for C6 with an empty accumulator and dt = 1/25. -/
theorem autoplay_wraparound_witness :
    (onUpdate ⟨false, false, 0, TIMELINE_MAX - TIMELINE_STEP⟩ (1 / 25)).2
      = [TIMELINE_MIN] ∧
    TIMELINE_MAX ∉ (onUpdate ⟨false, false, 0, TIMELINE_MAX - TIMELINE_STEP⟩ (1 / 25)).2 :=
  autoplay_wraparound 0 (1 / 25) (by norm_num [TIMELINE_STEP])

/-- Counterexample to claim C2: with an empty accumulator and a stalled
frame of dt = 2/25, the scaled elapsed time 0 + (2/25) * 0.5 equals
2 * TIMELINE_STEP, yet the tick writes exactly one stepped value, not two:
the drain is an if, not a while. -/
theorem onUpdate_single_drain_counterexample :
    (0 : ℚ) + (2 / 25) * (1 / 2) ≥ 2 * TIMELINE_STEP ∧
    (onUpdate ⟨false, false, 0, TIMELINE_MIN⟩ (2 / 25)).2.length = 1 ∧
    (onUpdate ⟨false, false, 0, TIMELINE_MIN⟩ (2 / 25)).2.length ≠ 2 := by
  refine ⟨by norm_num [TIMELINE_STEP], ?_, ?_⟩ <;>
    · unfold onUpdate
      norm_num [TIMELINE_STEP, TIMELINE_MIN, TIMELINE_MAX]

/-- Claim C2 as amended: a tick on which the accumulator reaches
TIMELINE_STEP performs exactly one advancement step and keeps the surplus
accumulator + dt * 0.5 - TIMELINE_STEP, so any further due steps happen
on subsequent ticks rather than inside the same tick. -/
theorem onUpdate_single_drain (s : TState) (dt : ℚ)
    (hdrag : s.isDragging = false) (hpause : s.isPaused = false)
    (h : TIMELINE_STEP ≤ s.acc + dt * (1 / 2)) :
    (onUpdate s dt).2.length = 1 ∧
    (onUpdate s dt).1.acc = s.acc + dt * (1 / 2) - TIMELINE_STEP := by
  unfold onUpdate
  simp only [hdrag, hpause, Bool.or_self, Bool.false_eq_true, if_false,
    if_pos h]
  constructor <;> simp

/-- Witness for the amended C2 at the stalled-frame input of the
counterexample. -/
theorem onUpdate_single_drain_witness :
    (onUpdate ⟨false, false, 0, TIMELINE_MIN⟩ (2 / 25)).2.length = 1 ∧
    (onUpdate ⟨false, false, 0, TIMELINE_MIN⟩ (2 / 25)).1.acc
      = 0 + (2 / 25) * (1 / 2) - TIMELINE_STEP :=
  onUpdate_single_drain ⟨false, false, 0, TIMELINE_MIN⟩ (2 / 25) rfl rfl
    (by norm_num [TIMELINE_STEP])

/- ------------------------------------------------------------------
   Event store (createDataStore, src/main.mjs lines 7-42).
   listeners is a JavaScript Map from event name to a Set of callbacks;
   both keep insertion order.  Callbacks are modelled by natural-number
   identities.  emit runs callbacks.forEach, whose ECMAScript semantics is
   LIVE iteration: elements added during the pass are visited, elements
   deleted before being visited are skipped.
   ------------------------------------------------------------------ -/

/-- An action a callback may perform, while being invoked by emit, on the
callback Set of the very event being emitted: on (Set.add) or off
(Set.delete) for that event, src/main.mjs lines 20-35. -/
inductive MutOp where
  | addCb (c : ℕ)
  | delCb (c : ℕ)
deriving DecidableEq

/-- One mutation applied to the live iteration state of Set.forEach.  The
pair holds (visited, remaining); their concatenation is the current content
of the iterated Set in insertion order.  Set.add is a no-op when the
element is already present and otherwise appends at the end (so it will
still be visited); Set.delete removes the element wherever it stands. -/
def applyMut (p : List ℕ × List ℕ) : MutOp → List ℕ × List ℕ
  | .addCb c => if c ∈ p.1 ∨ c ∈ p.2 then p else (p.1, p.2 ++ [c])
  | .delCb c => (p.1.erase c, p.2.erase c)

/-- All mutations of one callback invocation, applied left to right. -/
def applyMuts (p : List ℕ × List ℕ) (ops : List MutOp) : List ℕ × List ℕ :=
  ops.foldl applyMut p

/-- Live iteration of callbacks.forEach in emit (src/main.mjs line 16).
beh gives the on/off calls a callback performs when invoked.  The visited
callback is appended to the visited part before its behavior runs.
Adversarial behaviors (delete plus re-add cycles) can make the real
JavaScript loop diverge, so the recursion is bounded by an explicit fuel;
the theorems below hold for every sufficiently large fuel. -/
def emitAux (beh : ℕ → List MutOp) : ℕ → List ℕ → List ℕ → List ℕ
  | 0, _, _ => []
  | _ + 1, _, [] => []
  | fuel + 1, visited, c :: rest =>
      let p := applyMuts (visited ++ [c], rest) (beh c)
      c :: emitAux beh fuel p.1 p.2

/-- The data store state: Map of last-set values and Map of listener sets,
src/main.mjs lines 8-9. -/
structure Store where
  values : List (String × ℚ)
  listeners : List (String × List ℕ)
deriving DecidableEq

/-- listeners.get(eventName) for the callback list, defaulting to the
empty list when the event is unknown. -/
def lookupListeners : List (String × List ℕ) → String → List ℕ
  | [], _ => []
  | (e, l) :: rest, ev => if e = ev then l else lookupListeners rest ev

/-- listeners.has(eventName). -/
def hasEvent : List (String × List ℕ) → String → Bool
  | [], _ => false
  | (e, _) :: rest, ev => e = ev || hasEvent rest ev

/-- Set.add: append the callback only when it is not already present. -/
def addUnique (l : List ℕ) (c : ℕ) : List ℕ :=
  if c ∈ l then l else l ++ [c]

/-- Embedding of on (src/main.mjs lines 20-25): create the entry on first
registration, then Set.add the callback. -/
def onListeners : List (String × List ℕ) → String → ℕ → List (String × List ℕ)
  | [], ev, c => [(ev, [c])]
  | (e, l) :: rest, ev, c =>
      if e = ev then (e, addUnique l c) :: rest
      else (e, l) :: onListeners rest ev c

/-- Embedding of off (src/main.mjs lines 26-35): silently return when the
event is unknown, otherwise Set.delete the callback and drop the whole
entry when the set became empty. -/
def offListeners : List (String × List ℕ) → String → ℕ → List (String × List ℕ)
  | [], _, _ => []
  | (e, l) :: rest, ev, c =>
      if e = ev then
        let l2 := l.erase c
        if l2 = [] then rest else (e, l2) :: rest
      else (e, l) :: offListeners rest ev c

/-- values.set(key, value): update in place or append. -/
def setValues : List (String × ℚ) → String → ℚ → List (String × ℚ)
  | [], k, v => [(k, v)]
  | (k0, v0) :: rest, k, v =>
      if k0 = k then (k0, v) :: rest else (k0, v0) :: setValues rest k v

/-- The invocation trace of emit("<key>:set", value) fired by set, with
live forEach iteration under the callback behaviors beh. -/
def setTrace (beh : ℕ → List MutOp) (fuel : ℕ) (s : Store) (k : String)
    (v : ℚ) : List (ℕ × ℚ) :=
  (emitAux beh fuel [] (lookupListeners s.listeners (k ++ ":set"))).map
    (fun c => (c, v))

/-- Embedding of set (src/main.mjs lines 36-39) for callbacks that perform
no store operation while being invoked (the inert behavior): the value is
stored first, then every currently registered callback of "<key>:set" is
invoked with the value.  With inert callbacks forEach visits exactly the
elements present at call time, so fuel = length suffices. -/
def storeSet (s : Store) (k : String) (v : ℚ) : Store × List (ℕ × ℚ) :=
  (⟨setValues s.values k v, s.listeners⟩,
   setTrace (fun _ => []) (lookupListeners s.listeners (k ++ ":set")).length
     s k v)

/-- A store operation of the public data-store contract. -/
inductive StoreOp where
  | onEv (ev : String) (cb : ℕ)
  | offEv (ev : String) (cb : ℕ)
  | setKey (k : String) (v : ℚ)
deriving DecidableEq

/-- Apply one store operation to the store state. -/
def applyOp (s : Store) : StoreOp → Store
  | .onEv ev cb => ⟨s.values, onListeners s.listeners ev cb⟩
  | .offEv ev cb => ⟨s.values, offListeners s.listeners ev cb⟩
  | .setKey k v => (storeSet s k v).1

/-- Run a sequence of store operations starting from the empty store that
createDataStore returns. -/
def runOps (ops : List StoreOp) : Store :=
  ops.foldl applyOp ⟨[], []⟩

/-- With inert callbacks, the live forEach pass visits exactly the
callbacks present at call time, in order. -/
theorem emitAux_inert (l : List ℕ) (fuel : ℕ) (visited : List ℕ)
    (h : l.length ≤ fuel) : emitAux (fun _ => []) fuel visited l = l := by
  induction l generalizing fuel visited with
  | nil => cases fuel <;> rfl
  | cons c rest ih =>
      cases fuel with
      | zero => simp at h
      | succ n =>
          show c :: emitAux (fun _ => []) n (visited ++ [c]) rest = c :: rest
          rw [ih n (visited ++ [c]) (by simpa using h)]

/-- Counterexample to claim C1: with callback 0 alone registered for
"k:set" and a behavior where callback 0 registers callback 1 for that same
event, set("k", 0) invokes callback 1 inside the same emission pass, even
though 1 was not registered when set was called: forEach iterates the live
Set, not a snapshot. -/
theorem snapshot_counterexample :
    lookupListeners [("k:set", [0])] ("k" ++ ":set") = [0] ∧
    (1 : ℕ) ∉ ([0] : List ℕ) ∧
    setTrace (fun c => if c = 0 then [MutOp.addCb 1] else []) 2
      ⟨[], [("k:set", [0])]⟩ "k" 0 = [(0, 0), (1, 0)] := by
  refine ⟨rfl, by decide, rfl⟩

/-- Claim C1 as amended: a callback newly registered for event "<k>:set"
during the emission pass of set(k, v) by a currently-executing callback IS
invoked within that same pass, right after the previously registered
callbacks: emission iterates the live callback set, not a snapshot. -/
theorem snapshot_amended (a b : ℕ) (k : String) (v : ℚ) (fuel : ℕ)
    (hab : a ≠ b) (hfuel : 2 ≤ fuel) :
    setTrace (fun x => if x = a then [MutOp.addCb b] else []) fuel
      ⟨[], [(k ++ ":set", [a])]⟩ k v = [(a, v), (b, v)] := by
  obtain ⟨n, rfl⟩ : ∃ n, fuel = n + 2 := ⟨fuel - 2, by omega⟩
  cases n with
  | zero =>
      simp [setTrace, lookupListeners, emitAux, applyMuts, applyMut,
        hab.symm]
  | succ m =>
      simp [setTrace, lookupListeners, emitAux, applyMuts, applyMut,
        hab.symm]

/-- Witness for the amended C1 at concrete callbacks 0 and 1. -/
theorem snapshot_amended_witness :
    setTrace (fun x => if x = 0 then [MutOp.addCb 1] else []) 2
      ⟨[], [("timeline.uTime" ++ ":set", [0])]⟩ "timeline.uTime" (1 / 2)
      = [(0, 1 / 2), (1, 1 / 2)] :=
  snapshot_amended 0 1 "timeline.uTime" (1 / 2) 2 (by decide) (by decide)

/-- Claim C10: if a callback invoked earlier in the emission pass of
set(k, v) removes a later-registered callback b that has not yet been
invoked, then b is not invoked in that pass, while the untouched later
callback c still is: removals take effect immediately on the live set. -/
theorem off_during_emission (a b c : ℕ) (k : String) (v : ℚ) (fuel : ℕ)
    (hab : a ≠ b) (hac : a ≠ c) (_hbc : b ≠ c) (hfuel : 2 ≤ fuel) :
    setTrace (fun x => if x = a then [MutOp.delCb b] else []) fuel
      ⟨[], [(k ++ ":set", [a, b, c])]⟩ k v = [(a, v), (c, v)] := by
  obtain ⟨n, rfl⟩ : ∃ n, fuel = n + 2 := ⟨fuel - 2, by omega⟩
  cases n with
  | zero =>
      simp [setTrace, lookupListeners, emitAux, applyMuts, applyMut,
        List.erase_cons, hab.symm, hac.symm, hab]
  | succ m =>
      simp [setTrace, lookupListeners, emitAux, applyMuts, applyMut,
        List.erase_cons, hab.symm, hac.symm, hab]

/-- Witness for C10 at concrete callbacks 0, 1, 2. -/
theorem off_during_emission_witness :
    setTrace (fun x => if x = 0 then [MutOp.delCb 1] else []) 2
      ⟨[], [("k" ++ ":set", [0, 1, 2])]⟩ "k" 0 = [(0, 0), (2, 0)] :=
  off_during_emission 0 1 2 "k" 0 2 (by decide) (by decide) (by decide)
    (by decide)

/-- Well-formedness of the listener map maintained by on/off: keys are
unique (it is a JavaScript Map) and every entry holds a nonempty,
duplicate-free callback list (a nonempty JavaScript Set). -/
def listenersWF (L : List (String × List ℕ)) : Prop :=
  (L.map Prod.fst).Nodup ∧ ∀ p ∈ L, p.2 ≠ [] ∧ p.2.Nodup

theorem addUnique_ne_nil (l : List ℕ) (c : ℕ) : addUnique l c ≠ [] := by
  unfold addUnique
  split_ifs with h
  · rintro rfl
    simp at h
  · simp

theorem addUnique_nodup (l : List ℕ) (c : ℕ) (h : l.Nodup) :
    (addUnique l c).Nodup := by
  unfold addUnique
  split_ifs with hc
  · exact h
  · simp [List.nodup_append, h, hc]

theorem mem_addUnique_self (l : List ℕ) (c : ℕ) : c ∈ addUnique l c := by
  unfold addUnique
  split_ifs with h
  · exact h
  · simp

theorem addUnique_idem (l : List ℕ) (c : ℕ) :
    addUnique (addUnique l c) c = addUnique l c := by
  conv_lhs => rw [addUnique]
  rw [if_pos (mem_addUnique_self l c)]

theorem onListeners_keys_subset (L : List (String × List ℕ)) (ev : String)
    (c : ℕ) (x : String)
    (hx : x ∈ (onListeners L ev c).map Prod.fst) :
    x ∈ L.map Prod.fst ∨ x = ev := by
  induction L with
  | nil =>
      right
      simpa [onListeners] using hx
  | cons p rest ih =>
      obtain ⟨e, l⟩ := p
      by_cases he : e = ev
      · rw [onListeners, if_pos he] at hx
        exact Or.inl (by simpa using hx)
      · rw [onListeners, if_neg he] at hx
        simp only [List.map_cons, List.mem_cons] at hx ⊢
        rcases hx with h | h
        · exact Or.inl (Or.inl h)
        · rcases ih h with h2 | h2
          · exact Or.inl (Or.inr h2)
          · exact Or.inr h2

theorem onListeners_WF (L : List (String × List ℕ)) (ev : String) (c : ℕ)
    (h : listenersWF L) : listenersWF (onListeners L ev c) := by
  induction L with
  | nil =>
      refine ⟨by simp [onListeners], ?_⟩
      intro p hp
      rw [onListeners] at hp
      rw [List.mem_singleton] at hp
      subst hp
      exact ⟨by simp, by simp⟩
  | cons q rest ih =>
      obtain ⟨e, l⟩ := q
      obtain ⟨hkeys, hents⟩ := h
      rw [List.map_cons, List.nodup_cons] at hkeys
      obtain ⟨hnotin, hkeysRest⟩ := hkeys
      have hrestWF : listenersWF rest :=
        ⟨hkeysRest, fun p hp => hents p (by simp [hp])⟩
      by_cases he : e = ev
      · rw [onListeners, if_pos he]
        refine ⟨by rw [List.map_cons, List.nodup_cons]; exact ⟨hnotin, hkeysRest⟩, ?_⟩
        intro p hp
        rw [List.mem_cons] at hp
        rcases hp with rfl | hp
        · have hl := hents (e, l) (by simp)
          exact ⟨addUnique_ne_nil l c, addUnique_nodup l c hl.2⟩
        · exact hents p (by simp [hp])
      · rw [onListeners, if_neg he]
        obtain ⟨ih1, ih2⟩ := ih hrestWF
        refine ⟨?_, ?_⟩
        · rw [List.map_cons, List.nodup_cons]
          refine ⟨?_, ih1⟩
          intro hmem
          rcases onListeners_keys_subset rest ev c e hmem with h2 | h2
          · exact hnotin h2
          · exact he h2
        · intro p hp
          rw [List.mem_cons] at hp
          rcases hp with rfl | hp
          · exact hents (e, l) (by simp)
          · exact ih2 p hp

theorem offListeners_keys_subset (L : List (String × List ℕ)) (ev : String)
    (c : ℕ) (x : String)
    (hx : x ∈ (offListeners L ev c).map Prod.fst) :
    x ∈ L.map Prod.fst := by
  induction L with
  | nil => exact hx
  | cons p rest ih =>
      obtain ⟨e, l⟩ := p
      by_cases he : e = ev
      · rw [offListeners, if_pos he] at hx
        by_cases hnil : l.erase c = []
        · rw [if_pos hnil] at hx
          simp only [List.map_cons, List.mem_cons]
          exact Or.inr hx
        · rw [if_neg hnil] at hx
          simp only [List.map_cons, List.mem_cons] at hx ⊢
          exact hx
      · rw [offListeners, if_neg he] at hx
        simp only [List.map_cons, List.mem_cons] at hx ⊢
        rcases hx with h | h
        · exact Or.inl h
        · exact Or.inr (ih h)

theorem offListeners_WF (L : List (String × List ℕ)) (ev : String) (c : ℕ)
    (h : listenersWF L) : listenersWF (offListeners L ev c) := by
  induction L with
  | nil => exact h
  | cons q rest ih =>
      obtain ⟨e, l⟩ := q
      obtain ⟨hkeys, hents⟩ := h
      rw [List.map_cons, List.nodup_cons] at hkeys
      obtain ⟨hnotin, hkeysRest⟩ := hkeys
      have hrestWF : listenersWF rest :=
        ⟨hkeysRest, fun p hp => hents p (by simp [hp])⟩
      by_cases he : e = ev
      · rw [offListeners, if_pos he]
        by_cases hnil : l.erase c = []
        · rw [if_pos hnil]
          exact hrestWF
        · rw [if_neg hnil]
          refine ⟨by rw [List.map_cons, List.nodup_cons]; exact ⟨hnotin, hkeysRest⟩, ?_⟩
          intro p hp
          rw [List.mem_cons] at hp
          rcases hp with rfl | hp
          · have hl := hents (e, l) (by simp)
            exact ⟨hnil, hl.2.erase c⟩
          · exact hents p (by simp [hp])
      · rw [offListeners, if_neg he]
        obtain ⟨ih1, ih2⟩ := ih hrestWF
        refine ⟨?_, ?_⟩
        · rw [List.map_cons, List.nodup_cons]
          exact ⟨fun hmem => hnotin (offListeners_keys_subset rest ev c e hmem), ih1⟩
        · intro p hp
          rw [List.mem_cons] at hp
          rcases hp with rfl | hp
          · exact hents (e, l) (by simp)
          · exact ih2 p hp

theorem runOps_WF (ops : List StoreOp) : listenersWF (runOps ops).listeners := by
  suffices h : ∀ s : Store, listenersWF s.listeners →
      listenersWF (ops.foldl applyOp s).listeners from
    h ⟨[], []⟩ ⟨by simp, by simp⟩
  induction ops with
  | nil => exact fun s hs => hs
  | cons op rest ih =>
      intro s hs
      apply ih
      cases op with
      | onEv ev cb => exact onListeners_WF s.listeners ev cb hs
      | offEv ev cb => exact offListeners_WF s.listeners ev cb hs
      | setKey k v => exact hs

theorem lookupListeners_nodup (L : List (String × List ℕ)) (ev : String)
    (h : listenersWF L) : (lookupListeners L ev).Nodup := by
  induction L with
  | nil => simp [lookupListeners]
  | cons p rest ih =>
      obtain ⟨e, l⟩ := p
      rw [lookupListeners]
      split_ifs with he
      · exact (h.2 (e, l) (by simp)).2
      · refine ih ⟨?_, fun p hp => h.2 p (by simp [hp])⟩
        have := h.1
        rw [List.map_cons, List.nodup_cons] at this
        exact this.2

/-- Counting one callback in the emission trace: with a duplicate-free
registration list, each callback is delivered once when registered and
never otherwise. -/
theorem count_map_pair (l : List ℕ) (v : ℚ) (cb : ℕ) (hnd : l.Nodup) :
    ((l.map fun c => (c, v)).count (cb, v)) = if cb ∈ l then 1 else 0 := by
  induction l with
  | nil => simp
  | cons a rest ih =>
      rw [List.nodup_cons] at hnd
      by_cases hac : cb = a
      · subst hac
        simp [List.count_cons, ih hnd.2, hnd.1]
      · simp [List.count_cons, ih hnd.2, hac, Ne.symm hac]

/-- Claim C4: after set(k, v), every callback registered for "<k>:set" at
call time is invoked exactly once with v, in registration order; duplicate
on registrations never duplicate delivery; callbacks of other events are
not invoked; set re-emits identically on a repeated write of the same
value; and a repeated on registration leaves the listener map unchanged. -/
theorem store_fanout (ops : List StoreOp) (k : String) (v : ℚ) (cb cb2 : ℕ)
    (w : ℚ) (L : List (String × List ℕ)) (ev : String) :
    (storeSet (runOps ops) k v).2
      = (lookupListeners (runOps ops).listeners (k ++ ":set")).map
          (fun c => (c, v)) ∧
    ((storeSet (runOps ops) k v).2.count (cb, v)
      = if cb ∈ lookupListeners (runOps ops).listeners (k ++ ":set") then 1
        else 0) ∧
    ((cb2, w) ∈ (storeSet (runOps ops) k v).2 →
      cb2 ∈ lookupListeners (runOps ops).listeners (k ++ ":set") ∧ w = v) ∧
    (storeSet (storeSet (runOps ops) k v).1 k v).2
      = (storeSet (runOps ops) k v).2 ∧
    onListeners (onListeners L ev cb) ev cb = onListeners L ev cb := by
  have hinert :
      (storeSet (runOps ops) k v).2
        = (lookupListeners (runOps ops).listeners (k ++ ":set")).map
            (fun c => (c, v)) := by
    show setTrace (fun _ => []) _ _ _ _ = _
    rw [setTrace,
      emitAux_inert (lookupListeners (runOps ops).listeners (k ++ ":set")) _
        [] (le_refl _)]
  have hnd : (lookupListeners (runOps ops).listeners (k ++ ":set")).Nodup :=
    lookupListeners_nodup _ _ (runOps_WF ops)
  refine ⟨hinert, ?_, ?_, rfl, ?_⟩
  · rw [hinert]
    exact count_map_pair _ v cb hnd
  · rw [hinert]
    intro hmem
    rw [List.mem_map] at hmem
    obtain ⟨c, hc, heq⟩ := hmem
    have h1 : c = cb2 := congrArg Prod.fst heq
    have h2 : v = w := congrArg Prod.snd heq
    exact ⟨h1 ▸ hc, h2.symm⟩
  · induction L with
    | nil => simp [onListeners, addUnique]
    | cons p rest ih =>
        obtain ⟨e, l⟩ := p
        by_cases he : e = ev
        · rw [onListeners, if_pos he, onListeners, if_pos he, addUnique_idem]
        · rw [onListeners, if_neg he, onListeners, if_neg he, ih]

/-- Witness for C4 with a duplicate registration of callback 4. -/
theorem store_fanout_witness :
    (storeSet (runOps [StoreOp.onEv "t:set" 4, StoreOp.onEv "t:set" 4]) "t"
      (1 / 2)).2 = [(4, 1 / 2)] ∧
    (storeSet (runOps [StoreOp.onEv "t:set" 4, StoreOp.onEv "t:set" 4]) "t"
      (1 / 2)).2.count (4, 1 / 2) = 1 ∧
    (4 ∈ lookupListeners
        (runOps [StoreOp.onEv "t:set" 4, StoreOp.onEv "t:set" 4]).listeners
        ("t" ++ ":set") ∧ (1 / 2 : ℚ) = 1 / 2) := by
  have h := store_fanout [StoreOp.onEv "t:set" 4, StoreOp.onEv "t:set" 4]
    "t" (1 / 2) 4 4 (1 / 2) [] "z"
  refine ⟨?_, ?_, ?_⟩
  · rw [h.1]
    rfl
  · rw [h.2.1]
    decide
  · apply h.2.2.1
    rw [h.1]
    exact List.Mem.head _

theorem hasEvent_eq_false (L : List (String × List ℕ)) (e : String)
    (h : e ∉ L.map Prod.fst) : hasEvent L e = false := by
  induction L with
  | nil => rfl
  | cons p rest ih =>
      obtain ⟨e0, l0⟩ := p
      rw [List.map_cons, List.mem_cons] at h
      push_neg at h
      rw [hasEvent, Bool.or_eq_false_iff]
      exact ⟨by simpa using fun hh => h.1 hh.symm, ih h.2⟩

theorem off_last_removes (L : List (String × List ℕ)) (e : String) (cb : ℕ)
    (hW : listenersWF L) (h : lookupListeners L e = [cb]) :
    hasEvent (offListeners L e cb) e = false := by
  induction L with
  | nil => simp [lookupListeners] at h
  | cons p rest ih =>
      obtain ⟨e0, l0⟩ := p
      obtain ⟨hkeys, hents⟩ := hW
      rw [List.map_cons, List.nodup_cons] at hkeys
      by_cases he : e0 = e
      · rw [lookupListeners, if_pos he] at h
        subst h
        rw [offListeners, if_pos he]
        rw [show ([cb] : List ℕ).erase cb = [] by simp, if_pos rfl]
        exact hasEvent_eq_false rest e (he ▸ hkeys.1)
      · rw [lookupListeners, if_neg he] at h
        rw [offListeners, if_neg he, hasEvent, Bool.or_eq_false_iff]
        refine ⟨by simpa using he, ?_⟩
        exact ih ⟨hkeys.2, fun p hp => hents p (by simp [hp])⟩ h

theorem off_unknown (L : List (String × List ℕ)) (ev : String) (cb : ℕ)
    (h : hasEvent L ev = false) : offListeners L ev cb = L := by
  induction L with
  | nil => rfl
  | cons p rest ih =>
      obtain ⟨e, l⟩ := p
      rw [hasEvent, Bool.or_eq_false_iff] at h
      have hne : e ≠ ev := by simpa using h.1
      rw [offListeners, if_neg hne, ih h.2]

theorem on_unknown (L : List (String × List ℕ)) (ev : String) (cb : ℕ)
    (h : hasEvent L ev = false) :
    lookupListeners (onListeners L ev cb) ev = [cb] := by
  induction L with
  | nil => simp [onListeners, lookupListeners]
  | cons p rest ih =>
      obtain ⟨e, l⟩ := p
      rw [hasEvent, Bool.or_eq_false_iff] at h
      have hne : e ≠ ev := by simpa using h.1
      rw [onListeners, if_neg hne, lookupListeners, if_neg hne, ih h.2]

/-- Counterexample to claim C8: for the unknown event "e", on is not a
silent no-op: starting from the empty listener map it creates a fresh
entry. -/
theorem listener_on_counterexample :
    hasEvent ([] : List (String × List ℕ)) "e" = false ∧
    onListeners ([] : List (String × List ℕ)) "e" 0 ≠ [] := by
  exact ⟨rfl, by simp [onListeners]⟩

/-- Claim C8 as amended: over every sequence of on/off/set operations the
listener mapping never holds an empty callback set; off for the last
remaining callback of an event removes the event name from the mapping;
off for an unknown event is a silent no-op; and on for an unknown event is
not a no-op: it creates a fresh singleton entry. -/
theorem listener_cleanup (ops : List StoreOp) (e : String) (l : List ℕ)
    (cb : ℕ) (L : List (String × List ℕ)) (ev : String) :
    ((e, l) ∈ (runOps ops).listeners → l ≠ []) ∧
    (lookupListeners (runOps ops).listeners e = [cb] →
      hasEvent (offListeners (runOps ops).listeners e cb) e = false) ∧
    (hasEvent L ev = false → offListeners L ev cb = L) ∧
    (hasEvent L ev = false →
      lookupListeners (onListeners L ev cb) ev = [cb]) := by
  refine ⟨?_, ?_, off_unknown L ev cb, on_unknown L ev cb⟩
  · intro hp
    exact ((runOps_WF ops).2 (e, l) hp).1
  · intro h
    exact off_last_removes _ e cb (runOps_WF ops) h

/-- Witness for the amended C8: one registration for "e", then off removes
the event; off and on on the unknown event "x" of the empty map. -/
theorem listener_cleanup_witness :
    ([3] : List ℕ) ≠ [] ∧
    hasEvent (offListeners (runOps [StoreOp.onEv "e" 3]).listeners "e" 3)
      "e" = false ∧
    offListeners ([] : List (String × List ℕ)) "x" 3 = [] ∧
    lookupListeners (onListeners ([] : List (String × List ℕ)) "x" 3) "x"
      = [3] := by
  have h := listener_cleanup [StoreOp.onEv "e" 3] "e" [3] 3 [] "x"
  exact ⟨h.1 (List.Mem.head _), h.2.1 rfl, h.2.2.1 rfl, h.2.2.2 rfl⟩

/- ------------------------------------------------------------------
   Render sink adapter (applyDynamicToEntity, src/main.mjs lines 378-384).
   The external render target (spec section 6) is an opaque handle whose
   gsplat component, when present, exposes the optional runtime instance,
   its own enabled flag, and the enabled flag of its owning entity
   (entity.gsplat.entity.enabled).  Calling a method on an absent instance
   would raise a TypeError, modelled through Except.
   ------------------------------------------------------------------ -/

/-- The gsplat component as the adapter reads it. -/
structure GsplatComponent where
  inst : Option ℕ
  enabled : Bool
  ownerEnabled : Bool
deriving DecidableEq

/-- The render target entity with its optional gsplat component. -/
structure SplatEntity where
  gsplat : Option GsplatComponent
deriving DecidableEq

/-- Calling instance.applyDynamicState(value): a TypeError when the
instance is absent, otherwise exactly one applied invocation. -/
def applyDynamicState (inst : Option ℕ) (v : ℚ) : Except String (ℕ × ℚ) :=
  match inst with
  | none => .error "TypeError: applyDynamicState called on undefined"
  | some h => .ok (h, v)

/-- Embedding of applyDynamicToEntity (src/main.mjs lines 378-384): read
instance through the optional chain entity?.gsplat?.instance, return
early unless the instance exists and both enabled flags hold, then forward
the value to the instance exactly once. -/
def applyDynamicToEntity (entity : Option SplatEntity) (v : ℚ) :
    Except String (List (ℕ × ℚ)) :=
  match (entity.bind SplatEntity.gsplat).bind GsplatComponent.inst,
      entity.bind SplatEntity.gsplat with
  | none, _ => .ok []
  | some _, none => .ok []
  | some i, some g =>
      if !g.enabled || !g.ownerEnabled then .ok []
      else (applyDynamicState (some i) v).map (fun r => [r])

/-- Claim C9: applyDynamicToEntity never raises: it silently skips when
the target, its gsplat component or instance is absent, or either enabled
flag is false, and otherwise forwards the value to applyDynamicState
exactly once. -/
theorem render_sink_safe (entity : Option SplatEntity) (v : ℚ)
    (g : GsplatComponent) (i : ℕ) :
    (∃ r, applyDynamicToEntity entity v = .ok r) ∧
    (entity.bind SplatEntity.gsplat = some g → g.inst = some i →
      g.enabled = true → g.ownerEnabled = true →
      applyDynamicToEntity entity v = .ok [(i, v)]) ∧
    (entity.bind SplatEntity.gsplat = none →
      applyDynamicToEntity entity v = .ok []) ∧
    (entity.bind SplatEntity.gsplat = some g →
      (g.inst = none ∨ g.enabled = false ∨ g.ownerEnabled = false) →
      applyDynamicToEntity entity v = .ok []) := by
  refine ⟨?_, ?_, ?_, ?_⟩
  · rcases hE : entity.bind SplatEntity.gsplat with _ | g0
    · exact ⟨[], by simp [applyDynamicToEntity, hE]⟩
    · rcases hI : g0.inst with _ | i0
      · exact ⟨[], by simp [applyDynamicToEntity, hE, hI]⟩
      · by_cases h1 : g0.enabled <;> by_cases h2 : g0.ownerEnabled
        · exact ⟨[(i0, v)],
            by simp [applyDynamicToEntity, hE, hI, h1, h2, applyDynamicState,
              Except.map]⟩
        all_goals exact ⟨[],
          by simp [applyDynamicToEntity, hE, hI, h1, h2, applyDynamicState]⟩
  · intro hE hI h1 h2
    simp [applyDynamicToEntity, hE, hI, h1, h2, applyDynamicState, Except.map]
  · intro hE
    simp [applyDynamicToEntity, hE]
  · intro hE hbad
    rcases hbad with hI | h1 | h1
    · simp [applyDynamicToEntity, hE, hI]
    · rcases hI : g.inst with _ | i0
      · simp [applyDynamicToEntity, hE, hI]
      · simp [applyDynamicToEntity, hE, hI, h1]
    · rcases hI : g.inst with _ | i0
      · simp [applyDynamicToEntity, hE, hI]
      · simp [applyDynamicToEntity, hE, hI, h1]

/-- Witness for C9: an absent target is skipped without error, a fully
enabled target receives the value once, and a disabled owner is skipped. -/
theorem render_sink_safe_witness :
    (∃ r, applyDynamicToEntity none 0 = .ok r) ∧
    applyDynamicToEntity (some ⟨some ⟨some 7, true, true⟩⟩) (1 / 2)
      = .ok [(7, 1 / 2)] ∧
    applyDynamicToEntity (some ⟨some ⟨some 7, true, false⟩⟩) (1 / 2)
      = .ok [] := by
  have h1 := render_sink_safe none 0 ⟨some 7, true, true⟩ 7
  have h2 := render_sink_safe (some ⟨some ⟨some 7, true, true⟩⟩) (1 / 2)
    ⟨some 7, true, true⟩ 7
  have h3 := render_sink_safe (some ⟨some ⟨some 7, true, false⟩⟩) (1 / 2)
    ⟨some 7, true, false⟩ 7
  exact ⟨h1.1, h2.2.1 rfl rfl rfl rfl,
    h3.2.2.2 rfl (Or.inr (Or.inr rfl))⟩

end Huyu

